import Mathlib

/-!
Verification of `randomgames.py`: random finite two-player zero-sum
extensive-form games generated as trees and solved by backward induction.

Shallow embedding notes.
* The Python class hierarchy `Node` / `ActionNode` / `PayOffNode` becomes the
  inductive `GTree` with constructors `action` and `payoff`.  A `PayOffNode`
  never acquires children in the source (payoff nodes are never put on the
  generation worklist and the solver never touches their child list), so the
  `payoff` constructor carries no child list.
* Unset fields (`np.nan` stored in `decision`, `(np.nan, np.nan)` stored in
  `value`) become `none`; a set field becomes `some _`.
* The process-wide mutable id counter `Node.nodeid` and the identity of the
  module-level default root object are modelled by an explicit `PyState`
  (a heap from object references to trees plus the counter), threaded through
  the operations that the source performs on them.
* Randomness (`np.random.poisson`, `np.random.choice`) is an injected oracle:
  a list of natural-number draws consumed in order (empty list keeps yielding
  0); the theorems quantify over every oracle.
-/

namespace RandomGames

/-- A payoff / value pair, one component per player (`x[0]`, `x[1]`). -/
abbrev PPair := Int × Int

/-- Tuple indexing `x[p]`; the source only ever indexes with `p ∈ {0, 1}`. -/
def comp (x : PPair) (p : Nat) : Int := if p = 0 then x.1 else x.2

/-- Game-tree nodes.
`action nid player decision value children` embeds an `ActionNode`
(a `GameRootNode` is an `ActionNode` with `player = 0`);
`payoff nid pay` embeds a `PayOffNode` with payoff pair `pay`. -/
inductive GTree where
  | action (nid : Nat) (player : Nat) (decision : Option Nat)
      (value : Option PPair) (children : List GTree)
  | payoff (nid : Nat) (pay : PPair)

/-- Default tree used for out-of-range `List.getD` lookups. -/
def dfltT : GTree := GTree.payoff 0 (0, 0)

/-- The child list of a node (a `PayOffNode` has none). -/
def childrenOf : GTree → List GTree
  | .action _ _ _ _ cs => cs
  | .payoff _ _ => []

/-- The value the solver reads off a processed child: a `PayOffNode`
contributes its fixed payoff pair, an `ActionNode` its stored value pair.
The `getD` default stands for the `(np.nan, np.nan)` of an unsolved node;
on the solver's success path the value has always just been set. -/
def valueD : GTree → PPair
  | .action _ _ _ v _ => v.getD (0, 0)
  | .payoff _ q => q

/-- The list `[x[player] for x in child_value]` formed inside `solve`,
expressed over a child list. -/
def childVals (pl : Nat) (cs : List GTree) : List Int :=
  cs.map (fun c => comp (valueD c) pl)

mutual
/-- Number of nodes of a tree; used as a termination measure. -/
def tsize : GTree → Nat
  | .action _ _ _ _ cs => 1 + tsizeL cs
  | .payoff _ _ => 1

/-- Total number of nodes of a list of trees. -/
def tsizeL : List GTree → Nat
  | [] => 0
  | c :: r => tsize c + tsizeL r
end

/-- `np.argmax` on a list: index of the first occurrence of the maximum;
`none` embeds the `ValueError` that numpy raises on an empty sequence. -/
def npArgmax : List Int → Option Nat
  | [] => none
  | x :: xs =>
    match npArgmax xs with
    | none => some 0
    | some k => if x < xs.getD k 0 then some (k + 1) else some 0

/-- The only exception `solve` can raise: numpy's `ValueError` from
`np.argmax` on an empty sequence (a `DecisionNode` with no children).
The source defines no error class of its own — in particular no
`DegenerateNodeError`. -/
inductive SolveErr where
  | emptyArgmax
deriving Repr, DecidableEq

mutual
/-- `TwoPlayerGame.solve` on the subtree rooted at a node.  A `PayOffNode`
root is left untouched.  For an `ActionNode` the children are processed in
order (payoff children contribute their payoff pair; action children are
recursively solved, contributing their freshly stored value pair), then
`np.argmax` picks the decision and the node's `decision`/`value` fields are
written.  The tree is mutated in place in the source; here the mutated tree
is returned, together with `some` error if an exception escaped — mutations
performed before the exception are kept in the returned tree. -/
def solveT : GTree → GTree × Option SolveErr
  | .payoff nid q => (.payoff nid q, none)
  | .action nid pl d v cs =>
    match solveKids cs with
    | (cs2, _, some e) => (.action nid pl d v cs2, some e)
    | (cs2, vals, none) =>
      match npArgmax (vals.map (fun x => comp x pl)) with
      | none => (.action nid pl d v cs2, some SolveErr.emptyArgmax)
      | some k => (.action nid pl (some k) (some (vals.getD k (0, 0))) cs2, none)

/-- The `for i, child in enumerate(children)` loop of `solve`: returns the
(partially) processed children, the collected `child_value` list, and the
first error, if any; children after a failing child are left untouched. -/
def solveKids : List GTree → List GTree × List PPair × Option SolveErr
  | [] => ([], [], none)
  | .payoff nid q :: rest =>
    let r := solveKids rest
    (.payoff nid q :: r.1, q :: r.2.1, r.2.2)
  | .action nid pl d v cs :: rest =>
    match solveT (.action nid pl d v cs) with
    | (c2, some e) => (c2 :: rest, [], some e)
    | (c2, none) =>
      let r := solveKids rest
      (c2 :: r.1, valueD c2 :: r.2.1, r.2.2)
end

mutual
/-- Every `ActionNode` of the tree has at least one child. -/
def nonemptyActs : GTree → Bool
  | .payoff _ _ => true
  | .action _ _ _ _ cs => (!cs.isEmpty) && nonemptyActsL cs

/-- `nonemptyActs` over a list of trees. -/
def nonemptyActsL : List GTree → Bool
  | [] => true
  | c :: r => nonemptyActs c && nonemptyActsL r
end

mutual
/-- Correctness of the solver's annotations, read off a solved tree: at every
`ActionNode` with acting player `pl`, the stored `decision` is an index `k`
valid into `children`, the stored `value` is the value pair of
`children[k]`, no child's value component for `pl` exceeds `value[pl]`, and
every child before index `k` is strictly below it (so `k` is the first index
achieving the maximum). -/
def solvedOkB : GTree → Bool
  | .payoff _ _ => true
  | .action _ pl d v cs =>
    solvedOkL cs &&
    match d, v with
    | some k, some w =>
      decide (k < cs.length) &&
      decide (w = valueD (cs.getD k dfltT)) &&
      (List.range cs.length).all
        (fun j => decide ((childVals pl cs).getD j 0 ≤ comp w pl)) &&
      (List.range k).all
        (fun j => decide ((childVals pl cs).getD j 0 < comp w pl))
    | _, _ => false

/-- `solvedOkB` over a list of trees. -/
def solvedOkL : List GTree → Bool
  | [] => true
  | c :: r => solvedOkB c && solvedOkL r
end

/-- Is the node a `PayOffNode`? -/
def isPay : GTree → Bool
  | .payoff _ _ => true
  | .action _ _ _ _ _ => false

mutual
/-- Every dead end of the tree is a `PayOffNode`: no `ActionNode` has an
empty child list (so all leaves are payoff leaves). -/
def leafOkB : GTree → Bool
  | .payoff _ _ => true
  | .action _ _ _ _ cs => (!cs.isEmpty) && leafOkL cs

/-- `leafOkB` over a list of trees. -/
def leafOkL : List GTree → Bool
  | [] => true
  | c :: r => leafOkB c && leafOkL r
end

mutual
/-- Structural invariant of generated trees, relative to the expected acting
player `p` of the node: an `ActionNode` carries exactly player `p`, its
children are homogeneous (all `PayOffNode`s or all `ActionNode`s, never
mixed), and its children satisfy the invariant for the opposite player. -/
def nodeInv (p : Nat) : GTree → Bool
  | .payoff _ _ => true
  | .action _ pl _ _ cs =>
    (pl == p) && (cs.all isPay || cs.all (fun c => !isPay c)) &&
      nodeInvL ((p + 1) % 2) cs

/-- `nodeInv` over a list of trees. -/
def nodeInvL (p : Nat) : List GTree → Bool
  | [] => true
  | c :: r => nodeInv p c && nodeInvL p r
end

mutual
/-- All node ids of a tree, root first. -/
def idsOf : GTree → List Nat
  | .action nid _ _ _ cs => nid :: idsOfL cs
  | .payoff nid _ => [nid]

/-- `idsOf` over a list of trees. -/
def idsOfL : List GTree → List Nat
  | [] => []
  | c :: r => idsOf c ++ idsOfL r
end

mutual
/-- The payoff pairs of all `PayOffNode`s of a tree. -/
def payPairs : GTree → List PPair
  | .action _ _ _ _ cs => payPairsL cs
  | .payoff _ q => [q]

/-- `payPairs` over a list of trees. -/
def payPairsL : List GTree → List PPair
  | [] => []
  | c :: r => payPairs c ++ payPairsL r
end

/-- Generation parameters of a `TwoPlayerGame` (the Poisson mean `lam` only
feeds `np.random.poisson`, whose result is supplied by the oracle here, so it
carries no information of its own and is omitted). -/
structure GenPs where
  minactions : Nat
  maxactions : Nat
  minpayoffs : Nat
  maxpayoffs : Nat
  maxdepth : Nat
  ties : Bool

/-- The default keyword arguments of `TwoPlayerGame.__init__`. -/
def defaultPs : GenPs :=
  { minactions := 0, maxactions := 99, minpayoffs := 2, maxpayoffs := 99,
    maxdepth := 10, ties := false }

/-- `opts = [-1, 0, 1] if ties else [-1, 1]`. -/
def opts (ties : Bool) : List Int := if ties then [-1, 0, 1] else [-1, 1]

/-- `np.clip(x, lo, hi) = min(max(x, lo), hi)` on naturals. -/
def clip (x lo hi : Nat) : Nat := min (max x lo) hi

/-- Consume one draw from the oracle (an exhausted oracle yields 0; the
theorems quantify over every oracle, so nothing depends on the default). -/
def draw : List Nat → Nat × List Nat
  | [] => (0, [])
  | d :: o => (d, o)

/-- `ActionNode.reproduce_payoffs`: draw a clamped payoff count upstream,
then for each of the `n` children draw `v` from `opts` (`np.random.choice`,
modelled as an oracle index into the list) and create a `PayOffNode` with
payoff pair `(-v, v)`, ids continuing the counter. -/
def genPays (ties : Bool) : Nat → Nat → List Nat → List GTree × Nat × List Nat
  | 0, ctr, o => ([], ctr, o)
  | n + 1, ctr, o =>
    let s := draw o
    let v := (opts ties).getD (s.1 % (opts ties).length) 0
    let r := genPays ties n (ctr + 1) s.2
    (GTree.payoff ctr (-v, v) :: r.1, r.2.1, r.2.2)

mutual
/-- One generation step of `TwoPlayerGame.generate` below a node at `depth`
whose acting player is `player`: if `depth < maxdepth - 1` (written
`depth + 1 < maxdepth`, equivalent over the integers for a natural
`maxdepth`), draw a Poisson branching count clamped to
`[minactions, maxactions]` and create that many `ActionNode` children for
the opposite player, each expanded in turn; otherwise draw a count clamped
to `[minpayoffs, maxpayoffs]` and create that many `PayOffNode` children.
The source drives this with a LIFO worklist; visitation order only permutes
which oracle draws reach which open node and the theorems quantify over the
whole oracle, so the children are expanded recursively here.  Returns the
new child list, the id counter after all creations, and the rest of the
oracle. -/
def genSub (ps : GenPs) (depth player ctr : Nat) (o : List Nat) :
    List GTree × Nat × List Nat :=
  if depth + 1 < ps.maxdepth then
    let s := draw o
    genActs ps (depth + 1) ((player + 1) % 2) (clip s.1 ps.minactions ps.maxactions) ctr s.2
  else
    let s := draw o
    genPays ps.ties (clip s.1 ps.minpayoffs ps.maxpayoffs) ctr s.2
termination_by (ps.maxdepth - depth, 0)

/-- Create `n` `ActionNode` children at depth `cdepth` for player `cplayer`
(ids from the counter) and expand the subtree below each. -/
def genActs (ps : GenPs) (cdepth cplayer : Nat) :
    Nat → Nat → List Nat → List GTree × Nat × List Nat
  | 0, ctr, o => ([], ctr, o)
  | n + 1, ctr, o =>
    let s := genSub ps cdepth cplayer (ctr + 1) o
    let r := genActs ps cdepth cplayer n s.2.1 s.2.2
    (GTree.action ctr cplayer none none s.1 :: r.1, r.2.1, r.2.2)
termination_by n _ _ => (ps.maxdepth - cdepth, n + 1)
end

/-- `TwoPlayerGame.generate` from the game's root node (depth 0): replaces
the root's child list with freshly generated children.  The source calls
`reproduce_actions` / `reproduce_payoffs`, which exist only on `ActionNode`;
a `PayOffNode` root would raise `AttributeError`, and `generate` is only ever
invoked on the (action) root of a game, so a payoff root is returned
unchanged here. -/
def genRoot (ps : GenPs) (t : GTree) (ctr : Nat) (o : List Nat) :
    GTree × Nat × List Nat :=
  match t with
  | .action nid pl d v _ =>
    let s := genSub ps 0 pl ctr o
    (.action nid pl d v s.1, s.2.1, s.2.2)
  | .payoff nid q => (.payoff nid q, ctr, o)

/-- The single module-level default root object created when the class body
of `TwoPlayerGame` is evaluated: `GameRootNode()` with `Node.nodeid` still 0,
player 0, no children. -/
def defaultRootTree : GTree := GTree.action 0 0 none none []

/-- The heap reference of the default root object. -/
def defaultRootRef : Nat := 0

/-- Process-wide mutable state: the object heap (reference → current tree
rooted at that object) and the `Node.nodeid` counter.  `nextRef` is the
allocator for fresh object references. -/
structure PyState where
  heap : Nat → GTree
  counter : Nat
  nextRef : Nat

/-- State right after the module loads: evaluating the default argument
`root=GameRootNode()` (done once, at class-definition time) allocated the
default root at reference 0 with node id 0 and left the counter at 1. -/
def initState : PyState :=
  { heap := fun _ => defaultRootTree, counter := 1, nextRef := 1 }

/-- Pointwise heap update. -/
def hUpdate (h : Nat → GTree) (r : Nat) (t : GTree) : Nat → GTree :=
  fun x => if x = r then t else h x

/-- An explicit `GameRootNode()` construction: a fresh object whose node id
is the current counter (player 0, no children); increments the counter. -/
def mkGameRootNode (st : PyState) : Nat × PyState :=
  (st.nextRef,
   { heap := hUpdate st.heap st.nextRef (GTree.action st.counter 0 none none []),
     counter := st.counter + 1, nextRef := st.nextRef + 1 })

/-- A `TwoPlayerGame` object: the reference of its root node, its generation
parameters, and the `solved` flag. -/
structure Game where
  rootRef : Nat
  ps : GenPs
  solved : Bool

/-- `TwoPlayerGame.__init__`: `rootArg = none` means the `root` argument was
omitted, in which case the module-level default root object is used (Python
evaluates the default `root=GameRootNode()` exactly once).  The constructor
unconditionally runs `Node.set_nodeid(1)` and then generates if `generate`
is true.  Returns the game, the new state, and the remaining oracle. -/
def TwoPlayerGame.init (rootArg : Option Nat) (ps : GenPs) (generate : Bool)
    (o : List Nat) (st : PyState) : Game × PyState × List Nat :=
  let r := rootArg.getD defaultRootRef
  let st1 : PyState := { st with counter := 1 }
  if generate then
    let s := genRoot ps (st1.heap r) st1.counter o
    ({ rootRef := r, ps := ps, solved := false },
     { st1 with heap := hUpdate st1.heap r s.1, counter := s.2.1 }, s.2.2)
  else
    ({ rootRef := r, ps := ps, solved := false }, st1, o)

/-- `TwoPlayerGame.branch`: wraps an existing node in a new game object via
`TwoPlayerGame(root=node, generate=False)` — all other arguments take their
defaults, and the constructor (unconditionally) resets the id counter. -/
def branch (_g : Game) (nodeRef : Nat) (st : PyState) : Game × PyState :=
  let s := TwoPlayerGame.init (some nodeRef) defaultPs false [] st
  (s.1, s.2.1)

/-- Game-level `solve`: solves the tree at the game's root and sets the
`solved` flag, whose assignment is the last line of `solve` and therefore
does not run when an exception escapes. -/
def gSolve (g : Game) (t : GTree) : Game × GTree :=
  match solveT t with
  | (t2, none) => ({ g with solved := true }, t2)
  | (t2, some _) => (g, t2)

/-- The dictionary entry `valuemap[curr.nodeid] = ...` written for a visited
node: the payoff pair component for a `PayOffNode`, the stored value pair
component for an `ActionNode`. -/
def vmEntry (p : Nat) : GTree → Nat × Int
  | .action nid _ _ v _ => (nid, comp (v.getD (0, 0)) p)
  | .payoff nid q => (nid, comp q p)

/-- The `while len(to_visit) > 0` loop of `valuemap`.  The source pops from
the end of `to_visit` and appends children in order; the head of the list is
used as the stack top here with the children pushed reversed, the same
traversal.  The dictionary is modelled as the accumulated association list,
most recent write first. -/
def vmLoop (p : Nat) : List GTree → List (Nat × Int) → List (Nat × Int)
  | [], acc => acc
  | c :: rest, acc => vmLoop p ((childrenOf c).reverse ++ rest) (vmEntry p c :: acc)
termination_by stack _ => tsizeL stack
decreasing_by
  have happ : ∀ a b : List GTree, tsizeL (a ++ b) = tsizeL a + tsizeL b := by
    intro a b
    induction a with
    | nil => simp [tsizeL]
    | cons x r ih => simp [tsizeL, ih]; omega
  have hrev : ∀ a : List GTree, tsizeL a.reverse = tsizeL a := by
    intro a
    induction a with
    | nil => rfl
    | cons x r ih => simp [tsizeL, List.reverse_cons, happ, ih]; omega
  have hch : tsizeL (childrenOf c) < tsize c := by
    cases c <;> simp [childrenOf, tsize, tsizeL]
  simp only [happ, hrev, tsizeL]
  omega

/-- `TwoPlayerGame.valuemap` on the tree at the game's root: the root's
entry is written first, reading `curr.value[playerid]` with no payoff check
(a `PayOffNode` root would raise `AttributeError`, hence `none`), then the
loop visits the rest of the subtree. -/
def valuemapRun (p : Nat) : GTree → Option (List (Nat × Int))
  | .payoff _ _ => none
  | .action nid _ _ v cs => some (vmLoop p cs [(nid, comp (v.getD (0, 0)) p)])

/-- Game-level `valuemap`, including the `assert self.solved` guard. -/
def gameValuemap (g : Game) (t : GTree) (p : Nat) : Option (List (Nat × Int)) :=
  if g.solved then valuemapRun p t else none

mutual
/-- The expected `valuemap` content: one entry per node of the subtree,
keyed by node id — the payoff pair component for a `PayOffNode`, the stored
value pair component for an `ActionNode`. -/
def entriesOf (p : Nat) : GTree → List (Nat × Int)
  | .action nid _ _ v cs => (nid, comp (v.getD (0, 0)) p) :: entriesL p cs
  | .payoff nid q => [(nid, comp q p)]

/-- `entriesOf` over a list of trees. -/
def entriesL (p : Nat) : List GTree → List (Nat × Int)
  | [] => []
  | c :: r => entriesOf p c ++ entriesL p r
end

/-- A concrete process state with the id counter at 7, used to exhibit the
counter reset performed by branch-view construction. -/
def st7 : PyState := { heap := fun _ => defaultRootTree, counter := 7, nextRef := 3 }

/-- Concrete generation parameters whose four clamp bounds are all at least
1, with depth bound 1 and ties disabled. -/
def psW : GenPs :=
  { minactions := 1, maxactions := 2, minpayoffs := 1, maxpayoffs := 2,
    maxdepth := 1, ties := false }

/-- A concrete game object over the default root. -/
def someGame : Game := { rootRef := defaultRootRef, ps := defaultPs, solved := false }

/-- A concrete tree whose second child is a degenerate dead end (a
`DecisionNode` with no children): solving fails there, after the first
child has already been fully solved. -/
def deadEndMix : GTree :=
  GTree.action 10 0 none none
    [GTree.action 11 1 none none [GTree.payoff 12 (1, -1)],
     GTree.action 13 1 none none []]

/-- The tree `solve` leaves behind on `deadEndMix`: first child annotated,
root and dead-end child untouched. -/
def deadEndMixOut : GTree :=
  GTree.action 10 0 none none
    [GTree.action 11 1 (some 0) (some (1, -1)) [GTree.payoff 12 (1, -1)],
     GTree.action 13 1 none none []]

/-- Invariants of a freshly generated child list (the first component of
`out`, with `out.2.1` the advanced id counter): all ids lie in the counter
window `[ctr, out.2.1)` and are pairwise distinct; the children satisfy the
alternation/homogeneity invariant `nodeInvL` for the expected child player
`cplayer`; the children are homogeneous (all payoff or all action); every
payoff pair below is `(-v, v)` for a draw `v` from `opts`; and when all four
branching clamp bounds are at least 1, every branch ends in a `PayoffNode`
leaf. -/
def GenOut (ps : GenPs) (cplayer ctr : Nat) (out : List GTree × Nat × List Nat) : Prop :=
  ctr ≤ out.2.1 ∧
  (∀ i ∈ idsOfL out.1, ctr ≤ i ∧ i < out.2.1) ∧
  (idsOfL out.1).Nodup ∧
  nodeInvL cplayer out.1 = true ∧
  (out.1.all isPay = true ∨ out.1.all (fun c => !isPay c) = true) ∧
  (∀ q ∈ payPairsL out.1, ∃ v, v ∈ opts ps.ties ∧ q = (-v, v)) ∧
  (1 ≤ ps.minactions → 1 ≤ ps.maxactions → 1 ≤ ps.minpayoffs → 1 ≤ ps.maxpayoffs →
    leafOkL out.1 = true)

/-! ## Theorems -/

theorem tsize_pos (t : GTree) : 1 ≤ tsize t := by
  cases t <;> simp [tsize]

theorem tsizeL_append (a b : List GTree) : tsizeL (a ++ b) = tsizeL a + tsizeL b := by
  induction a with
  | nil => simp [tsizeL]
  | cons c r ih => simp [tsizeL, ih]; omega

theorem tsizeL_reverse (a : List GTree) : tsizeL a.reverse = tsizeL a := by
  induction a with
  | nil => rfl
  | cons c r ih => simp [tsizeL, List.reverse_cons, tsizeL_append, ih]; omega

theorem tsizeL_childrenOf_lt (c : GTree) : tsizeL (childrenOf c) < tsize c := by
  cases c <;> simp [childrenOf, tsize, tsizeL]

theorem tsize_le_of_mem {c : GTree} {cs : List GTree} (h : c ∈ cs) :
    tsize c ≤ tsizeL cs := by
  induction cs with
  | nil => cases h
  | cons a r ih =>
    rcases List.mem_cons.mp h with rfl | h
    · simp [tsizeL]
    · have := ih h; simp [tsizeL]; omega

theorem tsize_lt_action {c : GTree} {cs : List GTree} (h : c ∈ cs)
    (nid pl : Nat) (d : Option Nat) (v : Option PPair) :
    tsize c < tsize (GTree.action nid pl d v cs) := by
  have := tsize_le_of_mem h
  simp [tsize]; omega

/-- Strong induction over trees by size. -/
theorem GTree.strongRec {P : GTree → Prop}
    (h : ∀ t, (∀ s, tsize s < tsize t → P s) → P t) : ∀ t, P t := by
  have key : ∀ n t, tsize t ≤ n → P t := by
    intro n
    induction n with
    | zero => intro t ht; exact h t (fun s hs => absurd (lt_of_lt_of_le hs ht) (by omega))
    | succ n ih => intro t ht; exact h t (fun s hs => ih s (by omega))
  exact fun t => key (tsize t) t le_rfl

theorem npArgmax_eq_none {l : List Int} (h : npArgmax l = none) : l = [] := by
  cases l with
  | nil => rfl
  | cons x xs =>
    exfalso
    simp only [npArgmax] at h
    rcases hx : npArgmax xs with _ | k <;> simp [hx] at h
    split at h <;> simp at h

theorem npArgmax_isSome {l : List Int} (h : l ≠ []) : ∃ k, npArgmax l = some k := by
  rcases he : npArgmax l with _ | k
  · exact absurd (npArgmax_eq_none he) h
  · exact ⟨k, rfl⟩

theorem npArgmax_lt_length {l : List Int} {k : Nat} (h : npArgmax l = some k) :
    k < l.length := by
  induction l generalizing k with
  | nil => simp [npArgmax] at h
  | cons x xs ih =>
    simp only [npArgmax] at h
    rcases hx : npArgmax xs with _ | k₀
    · simp only [hx, Option.some.injEq] at h
      subst h
      simp
    · simp only [hx] at h
      split at h
      · simp only [Option.some.injEq] at h
        have := ih hx
        subst h
        simp only [List.length_cons]
        omega
      · simp only [Option.some.injEq] at h
        subst h
        simp

theorem npArgmax_le {l : List Int} {k : Nat} (h : npArgmax l = some k) :
    ∀ j, j < l.length → l.getD j 0 ≤ l.getD k 0 := by
  induction l generalizing k with
  | nil => simp [npArgmax] at h
  | cons x xs ih =>
    simp only [npArgmax] at h
    rcases hx : npArgmax xs with _ | k₀
    · have hnil := npArgmax_eq_none hx
      subst hnil
      simp only [hx, Option.some.injEq] at h
      subst h
      intro j hj
      simp only [List.length_cons, List.length_nil] at hj
      have : j = 0 := by omega
      subst this
      exact le_refl _
    · simp only [hx] at h
      split at h
      case isTrue hlt =>
        simp only [Option.some.injEq] at h
        subst h
        intro j hj
        cases j with
        | zero =>
          simp only [List.getD_cons_zero, List.getD_cons_succ]
          exact le_of_lt hlt
        | succ j =>
          simp only [List.getD_cons_succ]
          exact ih hx j (by simp only [List.length_cons] at hj; omega)
      case isFalse hge =>
        simp only [Option.some.injEq] at h
        subst h
        intro j hj
        cases j with
        | zero => exact le_refl _
        | succ j =>
          simp only [List.getD_cons_succ, List.getD_cons_zero]
          push_neg at hge
          exact le_trans (ih hx j (by simp only [List.length_cons] at hj; omega)) hge

theorem npArgmax_first {l : List Int} {k : Nat} (h : npArgmax l = some k) :
    ∀ j, j < k → l.getD j 0 < l.getD k 0 := by
  induction l generalizing k with
  | nil => simp [npArgmax] at h
  | cons x xs ih =>
    simp only [npArgmax] at h
    rcases hx : npArgmax xs with _ | k₀
    · simp only [hx, Option.some.injEq] at h
      subst h
      intro j hj
      omega
    · simp only [hx] at h
      split at h
      case isTrue hlt =>
        simp only [Option.some.injEq] at h
        subst h
        intro j hj
        cases j with
        | zero =>
          simp only [List.getD_cons_zero, List.getD_cons_succ]
          exact hlt
        | succ j =>
          simp only [List.getD_cons_succ]
          exact ih hx j (by omega)
      case isFalse hge =>
        simp only [Option.some.injEq] at h
        subst h
        intro j hj
        omega

theorem getD_map_of_lt {α β : Type} (f : α → β) (l : List α) (k : Nat) (d : α) (e : β)
    (hk : k < l.length) : (l.map f).getD k e = f (l.getD k d) := by
  induction l generalizing k with
  | nil => simp at hk
  | cons a r ih =>
    cases k with
    | zero => simp
    | succ k =>
      simp only [List.map_cons, List.getD_cons_succ]
      exact ih k (by simp only [List.length_cons] at hk; omega)

/-- On the success path, the collected `child_value` list is exactly the
value pairs of the processed children, which are as many as the input
children. -/
theorem solveKids_vals : ∀ (cs cs2 : List GTree) (vals : List PPair),
    solveKids cs = (cs2, vals, none) →
    vals = cs2.map valueD ∧ cs2.length = cs.length := by
  intro cs
  induction cs with
  | nil =>
    intro cs2 vals h
    simp only [solveKids, Prod.mk.injEq] at h
    obtain ⟨h1, h2, _⟩ := h
    subst h1; subst h2
    simp
  | cons c rest ih =>
    intro cs2 vals h
    cases c with
    | payoff nid q =>
      rcases hr : solveKids rest with ⟨rs, vs, e⟩
      simp only [solveKids, hr, Prod.mk.injEq] at h
      obtain ⟨h1, h2, h3⟩ := h
      subst h1; subst h2
      cases e with
      | none =>
        obtain ⟨hv, hl⟩ := ih rs vs hr
        subst hv
        simp [valueD, hl]
      | some e => simp at h3
    | action nid pl d v cs0 =>
      rcases hc : solveT (GTree.action nid pl d v cs0) with ⟨c2, e2⟩
      cases e2 with
      | some e =>
        simp only [solveKids, hc, Prod.mk.injEq] at h
        obtain ⟨_, _, h3⟩ := h
        simp at h3
      | none =>
        rcases hr : solveKids rest with ⟨rs, vs, e⟩
        simp only [solveKids, hc, hr, Prod.mk.injEq] at h
        obtain ⟨h1, h2, h3⟩ := h
        subst h1; subst h2
        cases e with
        | none =>
          obtain ⟨hv, hl⟩ := ih rs vs hr
          subst hv
          simp [hl]
        | some e => simp at h3

/-- On the success path, every processed child satisfies the solver
post-condition, provided the recursive calls do. -/
theorem solveKids_sound : ∀ (cs : List GTree),
    (∀ c ∈ cs, (solveT c).2 = none → solvedOkB (solveT c).1 = true) →
    ∀ (cs2 : List GTree) (vals : List PPair),
    solveKids cs = (cs2, vals, none) → solvedOkL cs2 = true := by
  intro cs
  induction cs with
  | nil =>
    intro _ cs2 vals h
    simp only [solveKids, Prod.mk.injEq] at h
    obtain ⟨h1, _, _⟩ := h
    subst h1
    simp [solvedOkL]
  | cons c rest ih =>
    intro IH cs2 vals h
    cases c with
    | payoff nid q =>
      rcases hr : solveKids rest with ⟨rs, vs, e⟩
      simp only [solveKids, hr, Prod.mk.injEq] at h
      obtain ⟨h1, _, h3⟩ := h
      subst h1
      cases e with
      | some e => simp at h3
      | none =>
        have hrest := ih (fun c hc => IH c (List.mem_cons_of_mem _ hc)) rs vs hr
        simp [solvedOkL, solvedOkB, hrest]
    | action nid pl d v cs0 =>
      rcases hc : solveT (GTree.action nid pl d v cs0) with ⟨c2, e2⟩
      cases e2 with
      | some e =>
        simp only [solveKids, hc, Prod.mk.injEq] at h
        obtain ⟨_, _, h3⟩ := h
        simp at h3
      | none =>
        rcases hr : solveKids rest with ⟨rs, vs, e⟩
        simp only [solveKids, hc, hr, Prod.mk.injEq] at h
        obtain ⟨h1, _, h3⟩ := h
        subst h1
        cases e with
        | some e => simp at h3
        | none =>
          have hc2 : solvedOkB c2 = true := by
            have hnone : (solveT (GTree.action nid pl d v cs0)).2 = none := by simp [hc]
            have := IH _ (List.mem_cons_self _ _) hnone
            rwa [hc] at this
          have hrest := ih (fun c hcm => IH c (List.mem_cons_of_mem _ hcm)) rs vs hr
          simp [solvedOkL, hc2, hrest]

/-- Soundness of `solve`: whenever it completes without an exception, every
`ActionNode` of the resulting tree carries the first-argmax decision, the
value pair of the selected child, and a value no child improves on for the
acting player. -/
theorem solve_sound : ∀ t, (solveT t).2 = none → solvedOkB (solveT t).1 = true := by
  apply GTree.strongRec
  intro t IH
  cases t with
  | payoff nid q => intro _; simp [solveT, solvedOkB]
  | action nid pl d v cs =>
    intro hnone
    have IH2 : ∀ c ∈ cs, (solveT c).2 = none → solvedOkB (solveT c).1 = true :=
      fun c hc => IH c (tsize_lt_action hc nid pl d v)
    rcases hk : solveKids cs with ⟨cs2, vals, e⟩
    cases e with
    | some e => simp [solveT, hk] at hnone
    | none =>
      obtain ⟨hvals, hlen⟩ := solveKids_vals cs cs2 vals hk
      have hok2 := solveKids_sound cs IH2 cs2 vals hk
      rcases ha : npArgmax (vals.map fun x => comp x pl) with _ | k
      · simp [solveT, hk, ha] at hnone
      · have hres : solveT (GTree.action nid pl d v cs)
            = (GTree.action nid pl (some k) (some (vals.getD k (0, 0))) cs2, none) := by
          simp [solveT, hk, ha]
        rw [hres]
        have hvallen : vals.length = cs2.length := by rw [hvals]; simp
        have hkl : k < vals.length := by
          have := npArgmax_lt_length ha
          simpa using this
        have hklen : k < cs2.length := by omega
        have hw : vals.getD k (0, 0) = valueD (cs2.getD k dfltT) := by
          rw [hvals]
          exact getD_map_of_lt valueD cs2 k dfltT (0, 0) hklen
        have hCV : childVals pl cs2 = vals.map fun x => comp x pl := by
          rw [hvals, List.map_map]
          rfl
        have hcomp : comp (vals.getD k (0, 0)) pl
            = (vals.map fun x => comp x pl).getD k 0 :=
          (getD_map_of_lt (fun x => comp x pl) vals k (0, 0) 0 hkl).symm
        have hall1 : ∀ j, j < cs2.length →
            (childVals pl cs2).getD j 0 ≤ comp (vals.getD k (0, 0)) pl := by
          intro j hj
          rw [hCV, hcomp]
          exact npArgmax_le ha j (by simpa using (by omega : j < vals.length))
        have hall2 : ∀ j, j < k →
            (childVals pl cs2).getD j 0 < comp (vals.getD k (0, 0)) pl := by
          intro j hj
          rw [hCV, hcomp]
          exact npArgmax_first ha j hj
        simp only [solvedOkB, hok2, Bool.true_and]
        simp only [Bool.and_eq_true, decide_eq_true_eq, List.all_eq_true, List.mem_range]
        exact ⟨⟨⟨hklen, hw⟩, fun j hj => hall1 j hj⟩, fun j hj => hall2 j hj⟩

/-- If every `ActionNode` in the list has at least one child everywhere,
the children loop completes without an exception. -/
theorem solveKids_total : ∀ (cs : List GTree),
    (∀ c ∈ cs, nonemptyActs c = true → (solveT c).2 = none) →
    nonemptyActsL cs = true → (solveKids cs).2.2 = none := by
  intro cs
  induction cs with
  | nil => intro _ _; simp [solveKids]
  | cons c rest ih =>
    intro IH hne
    simp only [nonemptyActsL, Bool.and_eq_true] at hne
    obtain ⟨hc, hrest⟩ := hne
    have htail := ih (fun c hcm => IH c (List.mem_cons_of_mem _ hcm)) hrest
    cases c with
    | payoff nid q => simpa [solveKids] using htail
    | action nid pl d v cs0 =>
      have h1 : (solveT (GTree.action nid pl d v cs0)).2 = none :=
        IH _ (List.mem_cons_self _ _) hc
      rcases hsc : solveT (GTree.action nid pl d v cs0) with ⟨c2, e2⟩
      rw [hsc] at h1
      simp only at h1
      subst h1
      simpa [solveKids, hsc] using htail

/-- Totality of `solve` on trees whose `ActionNode`s all have at least one
child: no exception is raised. -/
theorem solve_total : ∀ t, nonemptyActs t = true → (solveT t).2 = none := by
  apply GTree.strongRec
  intro t IH
  cases t with
  | payoff nid q => intro _; simp [solveT]
  | action nid pl d v cs =>
    intro hne
    have hcsne : cs ≠ [] := by
      intro hcs
      subst hcs
      simp [nonemptyActs] at hne
    have hneL : nonemptyActsL cs = true := by
      simp only [nonemptyActs, Bool.and_eq_true] at hne
      exact hne.2
    have IH2 : ∀ c ∈ cs, nonemptyActs c = true → (solveT c).2 = none :=
      fun c hc => IH c (tsize_lt_action hc nid pl d v)
    have hkids := solveKids_total cs IH2 hneL
    rcases hk : solveKids cs with ⟨cs2, vals, e⟩
    rw [hk] at hkids
    simp only at hkids
    subst hkids
    obtain ⟨hvals, hlen⟩ := solveKids_vals cs cs2 vals hk
    have hvne : vals ≠ [] := by
      have h1 : 0 < cs.length := List.length_pos.mpr hcsne
      have h2 : vals.length = cs2.length := by rw [hvals]; simp
      intro hv
      subst hv
      simp at h2
      omega
    have hLne : (vals.map fun x => comp x pl) ≠ [] := by
      simpa using hvne
    obtain ⟨k, ha⟩ := npArgmax_isSome hLne
    simp [solveT, hk, ha]

/-- `solve` keeps an `ActionNode`'s id, player and (as a block) its processed
children; only `decision` and `value` are written. -/
theorem solveT_action_shape (nid pl : Nat) (d : Option Nat) (v : Option PPair)
    (cs : List GTree) :
    ∃ d2 v2 cs2, (solveT (GTree.action nid pl d v cs)).1
      = GTree.action nid pl d2 v2 cs2 := by
  rcases hk : solveKids cs with ⟨cs2, vals, e⟩
  cases e with
  | none =>
    rcases ha : npArgmax (vals.map fun x => comp x pl) with _ | k
    · exact ⟨d, v, cs2, by simp [solveT, hk, ha]⟩
    · exact ⟨some k, some (vals.getD k (0, 0)), cs2, by simp [solveT, hk, ha]⟩
  | some e => exact ⟨d, v, cs2, by simp [solveT, hk]⟩

/-- Re-running the children loop over already-processed children reproduces
the same children and the same `child_value` list. -/
theorem solveKids_idem : ∀ (cs : List GTree),
    (∀ c ∈ cs, (solveT c).2 = none → solveT ((solveT c).1) = ((solveT c).1, none)) →
    ∀ (cs2 : List GTree) (vals : List PPair), solveKids cs = (cs2, vals, none) →
    solveKids cs2 = (cs2, vals, none) := by
  intro cs
  induction cs with
  | nil =>
    intro _ cs2 vals h
    simp only [solveKids, Prod.mk.injEq] at h
    obtain ⟨h1, h2, _⟩ := h
    subst h1; subst h2
    simp [solveKids]
  | cons c rest ih =>
    intro IH cs2 vals h
    cases c with
    | payoff nid q =>
      rcases hr : solveKids rest with ⟨rs, vs, e⟩
      simp only [solveKids, hr, Prod.mk.injEq] at h
      obtain ⟨h1, h2, h3⟩ := h
      subst h1; subst h2
      cases e with
      | some e => simp at h3
      | none =>
        have hrec := ih (fun c hc => IH c (List.mem_cons_of_mem _ hc)) rs vs hr
        simp [solveKids, hrec]
    | action nid pl d v cs0 =>
      rcases hc : solveT (GTree.action nid pl d v cs0) with ⟨c2, e2⟩
      cases e2 with
      | some e =>
        simp only [solveKids, hc, Prod.mk.injEq] at h
        obtain ⟨_, _, h3⟩ := h
        simp at h3
      | none =>
        rcases hr : solveKids rest with ⟨rs, vs, e⟩
        simp only [solveKids, hc, hr, Prod.mk.injEq] at h
        obtain ⟨h1, h2, h3⟩ := h
        subst h1; subst h2
        cases e with
        | some e => simp at h3
        | none =>
          have hnone : (solveT (GTree.action nid pl d v cs0)).2 = none := by simp [hc]
          have hcidem := IH _ (List.mem_cons_self _ _) hnone
          rw [hc] at hcidem
          obtain ⟨d2, v2, cs02, hshape⟩ := solveT_action_shape nid pl d v cs0
          have hc2eq : c2 = GTree.action nid pl d2 v2 cs02 := by
            rw [hc] at hshape
            exact hshape
          subst hc2eq
          have hrec := ih (fun c hcm => IH c (List.mem_cons_of_mem _ hcm)) rs vs hr
          simp [solveKids, hcidem, hrec]

/-- Idempotence of `solve`: a second run over an already-solved tree
recomputes the same child values, hence the same argmax, and rewrites every
`decision`/`value` with the values already stored. -/
theorem solve_idem : ∀ t, (solveT t).2 = none →
    solveT ((solveT t).1) = ((solveT t).1, none) := by
  apply GTree.strongRec
  intro t IH
  cases t with
  | payoff nid q => intro _; simp [solveT]
  | action nid pl d v cs =>
    intro hnone
    have IH2 : ∀ c ∈ cs, (solveT c).2 = none →
        solveT ((solveT c).1) = ((solveT c).1, none) :=
      fun c hc => IH c (tsize_lt_action hc nid pl d v)
    rcases hk : solveKids cs with ⟨cs2, vals, e⟩
    cases e with
    | some e => simp [solveT, hk] at hnone
    | none =>
      rcases ha : npArgmax (vals.map fun x => comp x pl) with _ | k
      · simp [solveT, hk, ha] at hnone
      · have hres : solveT (GTree.action nid pl d v cs)
            = (GTree.action nid pl (some k) (some (vals.getD k (0, 0))) cs2, none) := by
          simp [solveT, hk, ha]
        rw [hres]
        have hkid := solveKids_idem cs IH2 cs2 vals hk
        simp [solveT, hkid, ha]

/-- Claim C1: on a game tree in which every `DecisionNode` has at least one
child, `solve` completes, and afterwards every `DecisionNode` with acting
player `p` stores as `decision` the first index maximizing component `p`
over its children's value pairs (a `PayOffNode` child's value pair being its
fixed payoff), stores as `value` the value pair of `children[decision]`, and
so `value[p]` is at least the `p`-component of every child's value pair —
the content of `solvedOkB`. -/
theorem claim1_solve_correct (t : GTree) (h : nonemptyActs t = true) :
    (solveT t).2 = none ∧ solvedOkB (solveT t).1 = true :=
  ⟨solve_total t h, solve_sound t (solve_total t h)⟩

/-- Witness for C1 at a concrete two-payoff game tree. -/
theorem claim1_solve_correct_witness :
    nonemptyActs (GTree.action 1 0 none none
      [GTree.payoff 2 (1, -1), GTree.payoff 3 (-1, 1)]) = true ∧
    (solveT (GTree.action 1 0 none none
      [GTree.payoff 2 (1, -1), GTree.payoff 3 (-1, 1)])).2 = none ∧
    solvedOkB (solveT (GTree.action 1 0 none none
      [GTree.payoff 2 (1, -1), GTree.payoff 3 (-1, 1)])).1 = true :=
  ⟨by simp [nonemptyActs, nonemptyActsL],
   claim1_solve_correct _ (by simp [nonemptyActs, nonemptyActsL])⟩

/-- Claim C3 (code bug): on a `DecisionNode` with zero children, `solve`
raises no explicit `DegenerateNodeError` — the source defines no such error
class; it crashes with numpy's `ValueError` from `np.argmax` on an empty
sequence (`SolveErr.emptyArgmax`), exactly the empty-sequence-argmax crash
the claim and spec §7 rule out, leaving the node unannotated. -/
theorem claim3_empty_children_crashes_argmax :
    solveT (GTree.action 1 0 none none [])
      = (GTree.action 1 0 none none [], some SolveErr.emptyArgmax) := by
  simp [solveT, solveKids, npArgmax]

/-- Claim C6: on a root `DecisionNode` for player 0 holding exactly the two
payoff children (1,-1) and (-1,1), `solve` succeeds, selects decision index
0 at the root and stores value (1,-1). -/
theorem claim6_two_payoff_scenario :
    solveT (GTree.action 1 0 none none [GTree.payoff 2 (1, -1), GTree.payoff 3 (-1, 1)])
      = (GTree.action 1 0 (some 0) (some (1, -1))
          [GTree.payoff 2 (1, -1), GTree.payoff 3 (-1, 1)], none) := by
  simp [solveT, solveKids, npArgmax, valueD, comp]

/-- Claim C9: solving an already-solved tree a second time stores, at every
`DecisionNode`, exactly the same decision index and the same value pair as
the first call: the second run returns the first run's tree unchanged, with
no error. -/
theorem claim9_solve_idempotent (t : GTree) (h : (solveT t).2 = none) :
    solveT ((solveT t).1) = ((solveT t).1, none) :=
  solve_idem t h

/-- On the success path, the processed children are pointwise the solved
originals. -/
theorem solveKids_point : ∀ (cs cs2 : List GTree) (vals : List PPair),
    solveKids cs = (cs2, vals, none) →
    ∀ j, j < cs.length → (solveT (cs.getD j dfltT)).2 = none ∧
      cs2.getD j dfltT = (solveT (cs.getD j dfltT)).1 := by
  intro cs
  induction cs with
  | nil => intro cs2 vals h j hj; simp at hj
  | cons c rest ih =>
    intro cs2 vals h j hj
    cases c with
    | payoff nid q =>
      rcases hr : solveKids rest with ⟨rs, vs, e⟩
      simp only [solveKids, hr, Prod.mk.injEq] at h
      obtain ⟨h1, _, h3⟩ := h
      subst h1
      cases e with
      | some e => simp at h3
      | none =>
        cases j with
        | zero => constructor <;> simp [solveT]
        | succ j =>
          have := ih rs vs hr j (by simp only [List.length_cons] at hj; omega)
          simpa using this
    | action nid pl d v cs0 =>
      rcases hc : solveT (GTree.action nid pl d v cs0) with ⟨c2, e2⟩
      cases e2 with
      | some e =>
        simp only [solveKids, hc, Prod.mk.injEq] at h
        obtain ⟨_, _, h3⟩ := h
        simp at h3
      | none =>
        rcases hr : solveKids rest with ⟨rs, vs, e⟩
        simp only [solveKids, hc, hr, Prod.mk.injEq] at h
        obtain ⟨h1, _, h3⟩ := h
        subst h1
        cases e with
        | some e => simp at h3
        | none =>
          cases j with
          | zero => constructor <;> simp [hc]
          | succ j =>
            have := ih rs vs hr j (by simp only [List.length_cons] at hj; omega)
            simpa using this

/-- When the children loop fails, the prefix processed before the failing
child keeps its solved form, the failing child keeps the mutations performed
before its exception, and the children after it are untouched. -/
theorem solveKids_err : ∀ (cs cs2 : List GTree) (vals : List PPair) (e : SolveErr),
    solveKids cs = (cs2, vals, some e) →
    cs2.length = cs.length ∧
    ∃ k, k < cs.length ∧
      (∀ j, j < k → (solveT (cs.getD j dfltT)).2 = none ∧
        cs2.getD j dfltT = (solveT (cs.getD j dfltT)).1) ∧
      ((solveT (cs.getD k dfltT)).2 = some e ∧
        cs2.getD k dfltT = (solveT (cs.getD k dfltT)).1) ∧
      (∀ j, k < j → cs2.getD j dfltT = cs.getD j dfltT) := by
  intro cs
  induction cs with
  | nil =>
    intro cs2 vals e h
    simp only [solveKids, Prod.mk.injEq] at h
    obtain ⟨_, _, h3⟩ := h
    simp at h3
  | cons c rest ih =>
    intro cs2 vals e h
    cases c with
    | payoff nid q =>
      rcases hr : solveKids rest with ⟨rs, vs, e0⟩
      simp only [solveKids, hr, Prod.mk.injEq] at h
      obtain ⟨h1, _, h3⟩ := h
      subst h1
      cases e0 with
      | none => simp at h3
      | some e0 =>
        have he : e0 = e := Option.some.inj h3
        subst he
        obtain ⟨hlen, k, hkl, hpre, hat, hpost⟩ := ih rs vs e0 hr
        refine ⟨by simp [hlen], k + 1, by simp only [List.length_cons]; omega, ?_, ?_, ?_⟩
        · intro j hj
          cases j with
          | zero => constructor <;> simp [solveT]
          | succ j => simpa using hpre j (by omega)
        · simpa using hat
        · intro j hj
          cases j with
          | zero => omega
          | succ j => simpa using hpost j (by omega)
    | action nid pl d v cs0 =>
      rcases hc : solveT (GTree.action nid pl d v cs0) with ⟨c2, e2⟩
      cases e2 with
      | some e2 =>
        simp only [solveKids, hc, Prod.mk.injEq] at h
        obtain ⟨h1, _, h3⟩ := h
        subst h1
        have he : e2 = e := by cases e2; cases e; rfl
        subst he
        refine ⟨by simp, 0, by simp, ?_, ?_, ?_⟩
        · intro j hj; omega
        · constructor <;> simp [hc]
        · intro j hj
          cases j with
          | zero => omega
          | succ j => simp
      | none =>
        rcases hr : solveKids rest with ⟨rs, vs, e0⟩
        simp only [solveKids, hc, hr, Prod.mk.injEq] at h
        obtain ⟨h1, _, h3⟩ := h
        subst h1
        cases e0 with
        | none => simp at h3
        | some e0 =>
          have he : e0 = e := Option.some.inj h3
          subst he
          obtain ⟨hlen, k, hkl, hpre, hat, hpost⟩ := ih rs vs e0 hr
          refine ⟨by simp [hlen], k + 1, by simp only [List.length_cons]; omega, ?_, ?_, ?_⟩
          · intro j hj
            cases j with
            | zero => constructor <;> simp [hc]
            | succ j => simpa using hpre j (by omega)
          · simpa using hat
          · intro j hj
            cases j with
            | zero => omega
            | succ j => simpa using hpost j (by omega)

/-- Claim C10: if `solve` raises an exception (e.g. upon reaching a
`DecisionNode` with zero children), the game's `solved` flag stays `False` —
its assignment is the last line of `solve` — while the in-place mutations
already performed are kept, with no rollback: the returned tree is exactly
the partially mutated one, the root's own `decision`/`value` are unchanged,
children fully processed before the failure remain solved with correct
annotations, and children after the failing one are untouched. -/
theorem claim10_no_rollback (g : Game) (nid pl : Nat) (d : Option Nat)
    (v : Option PPair) (cs : List GTree) (t2 : GTree) (e : SolveErr)
    (hflag : g.solved = false)
    (hfail : solveT (GTree.action nid pl d v cs) = (t2, some e)) :
    (gSolve g (GTree.action nid pl d v cs)).1.solved = false ∧
    (gSolve g (GTree.action nid pl d v cs)).2 = t2 ∧
    ∃ cs2, t2 = GTree.action nid pl d v cs2 ∧ cs2.length = cs.length ∧
      ∃ k, k ≤ cs.length ∧
        (∀ j, j < k → (solveT (cs.getD j dfltT)).2 = none ∧
          cs2.getD j dfltT = (solveT (cs.getD j dfltT)).1 ∧
          solvedOkB (cs2.getD j dfltT) = true) ∧
        (∀ j, k < j → cs2.getD j dfltT = cs.getD j dfltT) := by
  rcases hk : solveKids cs with ⟨cs2, vals, e0⟩
  cases e0 with
  | some e0 =>
    have hres : solveT (GTree.action nid pl d v cs)
        = (GTree.action nid pl d v cs2, some e0) := by
      simp [solveT, hk]
    rw [hres] at hfail
    obtain ⟨ht2, he⟩ : GTree.action nid pl d v cs2 = t2 ∧ e0 = e := by
      simpa [Prod.mk.injEq] using hfail
    subst ht2
    subst he
    obtain ⟨hlen, k, hkl, hpre, _, hpost⟩ := solveKids_err cs cs2 vals e0 hk
    refine ⟨by simp [gSolve, hres, hflag], by simp [gSolve, hres], cs2, rfl, hlen,
      k, by omega, ?_, hpost⟩
    intro j hj
    obtain ⟨hs, hg⟩ := hpre j hj
    exact ⟨hs, hg, by rw [hg]; exact solve_sound _ hs⟩
  | none =>
    rcases ha : npArgmax (vals.map fun x => comp x pl) with _ | k
    · have hres : solveT (GTree.action nid pl d v cs)
          = (GTree.action nid pl d v cs2, some SolveErr.emptyArgmax) := by
        simp [solveT, hk, ha]
      rw [hres] at hfail
      obtain ⟨ht2, he⟩ : GTree.action nid pl d v cs2 = t2 ∧ SolveErr.emptyArgmax = e := by
        simpa [Prod.mk.injEq] using hfail
      subst ht2
      subst he
      obtain ⟨hvals, hlen⟩ := solveKids_vals cs cs2 vals hk
      have hvnil : vals = [] := by
        have hmap := npArgmax_eq_none ha
        simpa using hmap
      have hcs2 : cs2 = [] := by
        rw [hvnil] at hvals
        exact (List.map_eq_nil_iff.mp hvals.symm)
      have hcs : cs = [] := by
        have : cs.length = 0 := by rw [← hlen, hcs2]; rfl
        exact List.length_eq_zero.mp this
      subst hcs2
      subst hcs
      refine ⟨by simp [gSolve, hres, hflag], by simp [gSolve, hres], [], rfl, rfl,
        0, by omega, ?_, ?_⟩
      · intro j hj; omega
      · intro j hj; rfl
    · have hres : solveT (GTree.action nid pl d v cs)
          = (GTree.action nid pl (some k) (some (vals.getD k (0, 0))) cs2, none) := by
        simp [solveT, hk, ha]
      rw [hres] at hfail
      simp at hfail

/-- Witness for C10 at `deadEndMix`: the first child is solved before the
dead-end second child fails. -/
theorem claim10_no_rollback_witness :
    someGame.solved = false ∧
    solveT deadEndMix = (deadEndMixOut, some SolveErr.emptyArgmax) ∧
    ((gSolve someGame (GTree.action 10 0 none none
        [GTree.action 11 1 none none [GTree.payoff 12 (1, -1)],
         GTree.action 13 1 none none []])).1.solved = false ∧
     (gSolve someGame (GTree.action 10 0 none none
        [GTree.action 11 1 none none [GTree.payoff 12 (1, -1)],
         GTree.action 13 1 none none []])).2 = deadEndMixOut ∧
     ∃ cs2, deadEndMixOut = GTree.action 10 0 none none cs2 ∧
       cs2.length = ([GTree.action 11 1 none none [GTree.payoff 12 (1, -1)],
         GTree.action 13 1 none none []] : List GTree).length ∧
       ∃ k, k ≤ ([GTree.action 11 1 none none [GTree.payoff 12 (1, -1)],
         GTree.action 13 1 none none []] : List GTree).length ∧
         (∀ j, j < k →
           (solveT (([GTree.action 11 1 none none [GTree.payoff 12 (1, -1)],
             GTree.action 13 1 none none []] : List GTree).getD j dfltT)).2 = none ∧
           cs2.getD j dfltT = (solveT (([GTree.action 11 1 none none
             [GTree.payoff 12 (1, -1)],
             GTree.action 13 1 none none []] : List GTree).getD j dfltT)).1 ∧
           solvedOkB (cs2.getD j dfltT) = true) ∧
         (∀ j, k < j → cs2.getD j dfltT
           = ([GTree.action 11 1 none none [GTree.payoff 12 (1, -1)],
              GTree.action 13 1 none none []] : List GTree).getD j dfltT)) :=
  ⟨rfl,
   by simp [deadEndMix, deadEndMixOut, solveT, solveKids, npArgmax, valueD, comp],
   claim10_no_rollback someGame 10 0 none none
     [GTree.action 11 1 none none [GTree.payoff 12 (1, -1)],
      GTree.action 13 1 none none []] deadEndMixOut SolveErr.emptyArgmax rfl
     (by simp [deadEndMix, deadEndMixOut, solveT, solveKids, npArgmax, valueD, comp])⟩

/-- Witness for C9 at a concrete two-payoff game tree. -/
theorem claim9_solve_idempotent_witness :
    (solveT (GTree.action 4 0 none none
      [GTree.payoff 5 (1, -1), GTree.payoff 6 (-1, 1)])).2 = none ∧
    solveT ((solveT (GTree.action 4 0 none none
      [GTree.payoff 5 (1, -1), GTree.payoff 6 (-1, 1)])).1)
      = ((solveT (GTree.action 4 0 none none
          [GTree.payoff 5 (1, -1), GTree.payoff 6 (-1, 1)])).1, none) :=
  ⟨by simp [solveT, solveKids, npArgmax, valueD, comp],
   claim9_solve_idempotent _ (by simp [solveT, solveKids, npArgmax, valueD, comp])⟩

theorem getD_mem_of_lt {α : Type} (l : List α) (n : Nat) (d : α) (h : n < l.length) :
    l.getD n d ∈ l := by
  induction l generalizing n with
  | nil => simp at h
  | cons a r ih =>
    cases n with
    | zero => simp
    | succ n =>
      simp only [List.getD_cons_succ]
      exact List.mem_cons_of_mem _ (ih n (by simp only [List.length_cons] at h; omega))

theorem opts_length_pos (ties : Bool) : 0 < (opts ties).length := by
  cases ties <;> simp [opts]

/-- Every `np.random.choice(opts)` draw is an element of `opts`. -/
theorem opts_draw_mem (ties : Bool) (d : Nat) :
    (opts ties).getD (d % (opts ties).length) 0 ∈ opts ties :=
  getD_mem_of_lt _ _ _ (Nat.mod_lt _ (opts_length_pos ties))

/-- A list of payoff leaves satisfies the player/homogeneity invariant for
any expected player. -/
theorem nodeInvL_of_pays (p : Nat) : ∀ l : List GTree, l.all isPay = true →
    nodeInvL p l = true := by
  intro l
  induction l with
  | nil => intro _; simp [nodeInvL]
  | cons c r ih =>
    intro h
    simp only [List.all_cons, Bool.and_eq_true] at h
    obtain ⟨h1, h2⟩ := h
    cases c with
    | payoff nid q => simp [nodeInvL, nodeInv, ih h2]
    | action nid pl d v cs => simp [isPay] at h1

/-- Invariants of `reproduce_payoffs`: `n` fresh consecutive ids, payoff
leaves only, each carrying `(-v, v)` for a draw `v ∈ opts`. -/
theorem genPays_inv (ties : Bool) : ∀ (n ctr : Nat) (o : List Nat),
    (genPays ties n ctr o).2.1 = ctr + n ∧
    (∀ i ∈ idsOfL (genPays ties n ctr o).1, ctr ≤ i ∧ i < ctr + n) ∧
    (idsOfL (genPays ties n ctr o).1).Nodup ∧
    (genPays ties n ctr o).1.all isPay = true ∧
    (∀ q ∈ payPairsL (genPays ties n ctr o).1, ∃ v, v ∈ opts ties ∧ q = (-v, v)) ∧
    leafOkL (genPays ties n ctr o).1 = true ∧
    ((genPays ties n ctr o).1 = [] ↔ n = 0) := by
  intro n
  induction n with
  | zero =>
    intro ctr o
    simp [genPays, idsOfL, payPairsL, leafOkL]
  | succ n ih =>
    intro ctr o
    obtain ⟨h1, h2, h3, h4, h5, h6, h7⟩ := ih (ctr + 1) (draw o).2
    simp only [genPays]
    refine ⟨by rw [h1]; omega, ?_, ?_, ?_, ?_, ?_, ?_⟩
    · intro i hi
      simp only [idsOfL, idsOf, List.singleton_append, List.mem_cons] at hi
      rcases hi with rfl | hi
      · omega
      · have := h2 i hi
        omega
    · simp only [idsOfL, idsOf, List.singleton_append]
      refine List.nodup_cons.mpr ⟨?_, h3⟩
      intro hmem
      have := h2 ctr hmem
      omega
    · simp only [List.all_cons, Bool.and_eq_true]
      exact ⟨rfl, h4⟩
    · intro q hq
      simp only [payPairsL, payPairs, List.singleton_append, List.mem_cons] at hq
      rcases hq with rfl | hq
      · exact ⟨_, opts_draw_mem ties (draw o).1, rfl⟩
      · exact h5 q hq
    · simp only [leafOkL, leafOkB, Bool.and_eq_true]
      exact ⟨trivial, h6⟩
    · simp

/-- Invariants of the action-children creation loop: relative to an
induction hypothesis covering the expansion of each child's subtree, the
created children are `n` fresh `ActionNode`s for player `cplayer`, with all
generated ids fresh and distinct. -/
theorem genActs_inv (ps : GenPs) (cdepth cplayer : Nat)
    (IH : ∀ ctr o, GenOut ps ((cplayer + 1) % 2) ctr (genSub ps cdepth cplayer ctr o) ∧
      (1 ≤ ps.minactions → 1 ≤ ps.maxactions → 1 ≤ ps.minpayoffs → 1 ≤ ps.maxpayoffs →
        (genSub ps cdepth cplayer ctr o).1 ≠ [])) :
    ∀ (n ctr : Nat) (o : List Nat),
    GenOut ps cplayer ctr (genActs ps cdepth cplayer n ctr o) ∧
    ((genActs ps cdepth cplayer n ctr o).1 = [] ↔ n = 0) ∧
    ((genActs ps cdepth cplayer n ctr o).1.all (fun c => !isPay c) = true) := by
  intro n
  induction n with
  | zero =>
    intro ctr o
    simp only [genActs]
    refine ⟨⟨le_refl _, ?_, ?_, ?_, ?_, ?_, ?_⟩, by simp, by simp⟩ <;>
      simp [idsOfL, nodeInvL, payPairsL, leafOkL]
  | succ n ih =>
    intro ctr o
    obtain ⟨⟨s1, s2, s3, s4, s5, s6, s7⟩, s8⟩ := IH (ctr + 1) o
    obtain ⟨⟨r1, r2, r3, r4, r5, r6, r7⟩, _, rall⟩ :=
      ih (genSub ps cdepth cplayer (ctr + 1) o).2.1 (genSub ps cdepth cplayer (ctr + 1) o).2.2
    simp only [genActs, GenOut]
    refine ⟨⟨by omega, ?_, ?_, ?_, ?_, ?_, ?_⟩, by simp, ?_⟩
    · intro i hi
      simp only [idsOfL, idsOf, List.cons_append, List.mem_cons, List.mem_append] at hi
      rcases hi with rfl | hi | hi
      · omega
      · have := s2 i hi
        omega
      · have := r2 i hi
        omega
    · simp only [idsOfL, idsOf, List.cons_append]
      refine List.nodup_cons.mpr ⟨?_, ?_⟩
      · intro hmem
        rcases List.mem_append.mp hmem with hi | hi
        · have := s2 ctr hi
          omega
        · have := r2 ctr hi
          omega
      · refine List.Nodup.append s3 r3 ?_
        intro a ha hb
        have := s2 a ha
        have := r2 a hb
        omega
    · simp only [nodeInvL, nodeInv, Bool.and_eq_true]
      refine ⟨⟨⟨?_, ?_⟩, s4⟩, r4⟩
      · simp
      · rcases s5 with h | h <;> simp [h]
    · right
      simp only [List.all_cons, Bool.and_eq_true]
      exact ⟨by simp [isPay], rall⟩
    · intro q hq
      simp only [payPairsL, payPairs, List.mem_append] at hq
      rcases hq with hq | hq
      · exact s6 q hq
      · exact r6 q hq
    · intro m1 m2 m3 m4
      simp only [leafOkL, leafOkB, Bool.and_eq_true]
      refine ⟨⟨?_, s7 m1 m2 m3 m4⟩, r7 m1 m2 m3 m4⟩
      have hnonempty := s8 m1 m2 m3 m4
      rcases hs : (genSub ps cdepth cplayer (ctr + 1) o).1 with _ | ⟨c, cs⟩
      · exact absurd hs hnonempty
      · simp
    · simp only [List.all_cons, Bool.and_eq_true]
      exact ⟨by simp [isPay], rall⟩

/-- Invariants of one `generate` expansion below a node at `depth`, by
strong induction on the remaining depth budget. -/
theorem genSub_fuel (ps : GenPs) : ∀ (fuel depth player ctr : Nat) (o : List Nat),
    ps.maxdepth - depth ≤ fuel →
    GenOut ps ((player + 1) % 2) ctr (genSub ps depth player ctr o) ∧
    (1 ≤ ps.minactions → 1 ≤ ps.maxactions → 1 ≤ ps.minpayoffs → 1 ≤ ps.maxpayoffs →
      (genSub ps depth player ctr o).1 ≠ []) := by
  have pays : ∀ (depth player ctr : Nat) (o : List Nat), ¬ depth + 1 < ps.maxdepth →
      GenOut ps ((player + 1) % 2) ctr (genSub ps depth player ctr o) ∧
      (1 ≤ ps.minactions → 1 ≤ ps.maxactions → 1 ≤ ps.minpayoffs → 1 ≤ ps.maxpayoffs →
        (genSub ps depth player ctr o).1 ≠ []) := by
    intro depth player ctr o hd
    have hrw : genSub ps depth player ctr o
        = genPays ps.ties (clip (draw o).1 ps.minpayoffs ps.maxpayoffs) ctr (draw o).2 := by
      rw [genSub, if_neg hd]
    rw [hrw]
    obtain ⟨h1, h2, h3, h4, h5, h6, h7⟩ :=
      genPays_inv ps.ties (clip (draw o).1 ps.minpayoffs ps.maxpayoffs) ctr (draw o).2
    refine ⟨⟨by omega, fun i hi => by have := h2 i hi; omega, h3,
      nodeInvL_of_pays _ _ h4, Or.inl h4, h5, fun _ _ _ _ => h6⟩, ?_⟩
    intro m1 m2 m3 m4
    intro hempty
    have := h7.mp hempty
    simp only [clip] at this
    omega
  intro fuel
  induction fuel with
  | zero =>
    intro depth player ctr o hf
    exact pays depth player ctr o (by omega)
  | succ fuel ihf =>
    intro depth player ctr o hf
    by_cases hd : depth + 1 < ps.maxdepth
    · have hrw : genSub ps depth player ctr o
          = genActs ps (depth + 1) ((player + 1) % 2)
              (clip (draw o).1 ps.minactions ps.maxactions) ctr (draw o).2 := by
        rw [genSub, if_pos hd]
      rw [hrw]
      have IH : ∀ c2 o2, GenOut ps (((player + 1) % 2 + 1) % 2) c2
          (genSub ps (depth + 1) ((player + 1) % 2) c2 o2) ∧
          (1 ≤ ps.minactions → 1 ≤ ps.maxactions → 1 ≤ ps.minpayoffs → 1 ≤ ps.maxpayoffs →
            (genSub ps (depth + 1) ((player + 1) % 2) c2 o2).1 ≠ []) :=
        fun c2 o2 => ihf (depth + 1) ((player + 1) % 2) c2 o2 (by omega)
      obtain ⟨hout, hne, _⟩ := genActs_inv ps (depth + 1) ((player + 1) % 2) IH
        (clip (draw o).1 ps.minactions ps.maxactions) ctr (draw o).2
      refine ⟨hout, ?_⟩
      intro m1 m2 m3 m4
      intro hempty
      have := hne.mp hempty
      simp only [clip] at this
      omega
    · exact pays depth player ctr o hd

/-- Invariants of one `generate` expansion below a node. -/
theorem genSub_main (ps : GenPs) (depth player ctr : Nat) (o : List Nat) :
    GenOut ps ((player + 1) % 2) ctr (genSub ps depth player ctr o) ∧
    (1 ≤ ps.minactions → 1 ≤ ps.maxactions → 1 ≤ ps.minpayoffs → 1 ≤ ps.maxpayoffs →
      (genSub ps depth player ctr o).1 ≠ []) :=
  genSub_fuel ps (ps.maxdepth - depth) depth player ctr o le_rfl

/-- The tree observable at the default root after a default-root game
construction: the root keeps id 0 and player 0, and its children are
freshly generated from counter 1. -/
theorem init_default_tree (ps : GenPs) (o : List Nat) :
    (TwoPlayerGame.init none ps true o initState).2.1.heap defaultRootRef
      = GTree.action 0 0 none none (genSub ps 0 0 1 o).1 := by
  simp [TwoPlayerGame.init, initState, genRoot, hUpdate, defaultRootRef, defaultRootTree]

/-- Counterexample to C2 as stated: with the source's default parameters
(`minactions = 0`) and a root Poisson draw of 0, `generate` leaves the root
`DecisionNode` with zero children, so the tree has a leaf that is not a
`PayoffNode` — refuting "every leaf is a PayoffNode" for generated trees. -/
theorem claim2_counterexample :
    leafOkB ((TwoPlayerGame.init none defaultPs true [0] initState).2.1.heap
      defaultRootRef) = false := by
  simp [TwoPlayerGame.init, initState, genRoot, genSub, genActs, draw, clip, defaultPs,
    defaultRootTree, defaultRootRef, hUpdate, leafOkB]

/-- Claim C2 (amended): every tree produced by `generate` on a default-root
game satisfies: the acting player alternates between 0 and 1 from the root
(player 0) downwards, and every `DecisionNode`'s children are all
`DecisionNode`s or all `PayoffNode`s, never mixed (`PayoffNode`s are leaves
by construction); and — provided the four branching clamp bounds are all at
least 1, which the original claim implicitly assumed but the default
`minactions = 0` violates — every leaf is a `PayoffNode`. -/
theorem claim2_generate_invariants (ps : GenPs) (o : List Nat) :
    nodeInv 0 ((TwoPlayerGame.init none ps true o initState).2.1.heap
      defaultRootRef) = true ∧
    (1 ≤ ps.minactions → 1 ≤ ps.maxactions → 1 ≤ ps.minpayoffs → 1 ≤ ps.maxpayoffs →
      leafOkB ((TwoPlayerGame.init none ps true o initState).2.1.heap
        defaultRootRef) = true) := by
  rw [init_default_tree ps o]
  obtain ⟨⟨g1, g2, g3, g4, g5, g6, g7⟩, g8⟩ := genSub_main ps 0 0 1 o
  constructor
  · simp only [nodeInv, Bool.and_eq_true]
    refine ⟨⟨?_, ?_⟩, ?_⟩
    · simp
    · rcases g5 with h | h <;> simp [h]
    · simpa using g4
  · intro m1 m2 m3 m4
    simp only [leafOkB, Bool.and_eq_true]
    refine ⟨?_, g7 m1 m2 m3 m4⟩
    have hne := g8 m1 m2 m3 m4
    rcases hs : (genSub ps 0 0 1 o).1 with _ | ⟨c, cs⟩
    · exact absurd hs hne
    · simp

/-- Witness for the amended C2 at concrete parameters with all clamp bounds
at least 1. -/
theorem claim2_generate_invariants_witness :
    nodeInv 0 ((TwoPlayerGame.init none psW true [1, 0] initState).2.1.heap
      defaultRootRef) = true ∧
    leafOkB ((TwoPlayerGame.init none psW true [1, 0] initState).2.1.heap
      defaultRootRef) = true :=
  ⟨(claim2_generate_invariants psW [1, 0]).1,
   (claim2_generate_invariants psW [1, 0]).2 (by decide) (by decide) (by decide) (by decide)⟩

/-- Claim C8: every `PayoffNode` created by generation carries a pair
`(-v, v)` for a `v` drawn from `opts` — `{-1, 0, 1}` with ties enabled,
`{-1, 1}` otherwise — hence `payoff[0] = -payoff[1]` (zero-sum), and with
ties disabled no payoff component is 0. -/
theorem claim8_payoffs_zero_sum (ps : GenPs) (o : List Nat) (q : PPair)
    (hq : q ∈ payPairs ((TwoPlayerGame.init none ps true o initState).2.1.heap
      defaultRootRef)) :
    (∃ v, v ∈ opts ps.ties ∧ q = (-v, v)) ∧ q.1 = -q.2 ∧
    (ps.ties = false → q.1 ≠ 0 ∧ q.2 ≠ 0) := by
  rw [init_default_tree ps o] at hq
  simp only [payPairs] at hq
  obtain ⟨⟨_, _, _, _, _, g6, _⟩, _⟩ := genSub_main ps 0 0 1 o
  obtain ⟨v, hv, rfl⟩ := g6 q hq
  refine ⟨⟨v, hv, rfl⟩, by simp, ?_⟩
  intro hties
  rw [hties] at hv
  simp only [opts] at hv
  fin_cases hv <;> refine ⟨?_, ?_⟩ <;> norm_num

/-- Witness for C8 at concrete no-tie parameters: the generated payoff pair
(1, -1). -/
theorem claim8_payoffs_zero_sum_witness :
    ((1 : Int), (-1 : Int)) ∈ payPairs ((TwoPlayerGame.init none psW true [1, 0]
      initState).2.1.heap defaultRootRef) ∧
    ((∃ v, v ∈ opts psW.ties ∧ ((1 : Int), (-1 : Int)) = (-v, v)) ∧
      (1 : Int) = -(-1 : Int) ∧
      (psW.ties = false → (1 : Int) ≠ 0 ∧ (-1 : Int) ≠ 0)) :=
  ⟨by simp [TwoPlayerGame.init, initState, genRoot, genSub, genActs, genPays, draw, clip,
      psW, defaultRootTree, defaultRootRef, hUpdate, payPairs, payPairsL, opts],
   claim8_payoffs_zero_sum psW [1, 0] (1, -1)
     (by simp [TwoPlayerGame.init, initState, genRoot, genSub, genActs, genPays, draw, clip,
       psW, defaultRootTree, defaultRootRef, hUpdate, payPairs, payPairsL, opts])⟩

/-- Counterexample to C5 as stated: branch-view construction DOES reset the
process-wide id counter — `TwoPlayerGame.__init__` runs `Node.set_nodeid(1)`
unconditionally and `branch` goes through it — so from a state with the
counter at 7, constructing a branch view leaves the counter at 1, refuting
"is not reset at branch-view construction". -/
theorem claim5_counterexample :
    st7.counter = 7 ∧ (branch someGame 2 st7).2.counter = 1 :=
  ⟨rfl, rfl⟩

/-- Claim C5 (amended): the node-identity counter is reset to 1 at the start
of EVERY `TwoPlayerGame` construction — branch-view construction included —
and ids are unique within one generation run: a default-root game's
generated children all have ids at least 1 (fresh after the reset) and the
whole tree's ids, the id 0 default root included, are pairwise distinct; ids
are reused across independent games since each construction restarts the
counter. -/
theorem claim5_counter_reset_everywhere (ps : GenPs) (o : List Nat) (st : PyState)
    (rootArg : Option Nat) (g : Game) (nodeRef : Nat) :
    (TwoPlayerGame.init rootArg ps false o st).2.1.counter = 1 ∧
    (branch g nodeRef st).2.counter = 1 ∧
    (∀ i ∈ idsOfL (childrenOf ((TwoPlayerGame.init none ps true o initState).2.1.heap
      defaultRootRef)), 1 ≤ i) ∧
    (idsOf ((TwoPlayerGame.init none ps true o initState).2.1.heap
      defaultRootRef)).Nodup := by
  refine ⟨by simp [TwoPlayerGame.init], by simp [branch, TwoPlayerGame.init], ?_, ?_⟩
  all_goals rw [init_default_tree ps o]
  all_goals obtain ⟨⟨g1, g2, g3, _, _, _, _⟩, _⟩ := genSub_main ps 0 0 1 o
  · simp only [childrenOf]
    intro i hi
    exact (g2 i hi).1
  · simp only [idsOf]
    refine List.nodup_cons.mpr ⟨?_, g3⟩
    intro hmem
    have := g2 0 hmem
    omega

/-- Claim C4: a `TwoPlayerGame` constructed without an explicit root uses
the one shared default root object (Python evaluates the default argument
`root=GameRootNode()` once, at class definition time), so a second
default-root game has the same root reference, re-generates over that shared
node, and the tree observable through the first game becomes the second
generation's output. -/
theorem claim4_shared_default_root (ps1 ps2 : GenPs) (o1 o2 : List Nat) :
    (TwoPlayerGame.init none ps1 true o1 initState).1.rootRef
      = (TwoPlayerGame.init none ps2 true o2
          (TwoPlayerGame.init none ps1 true o1 initState).2.1).1.rootRef ∧
    (TwoPlayerGame.init none ps2 true o2
        (TwoPlayerGame.init none ps1 true o1 initState).2.1).2.1.heap
      ((TwoPlayerGame.init none ps1 true o1 initState).1.rootRef)
      = (genRoot ps2
          ((TwoPlayerGame.init none ps1 true o1 initState).2.1.heap defaultRootRef)
          1 o2).1 := by
  constructor
  · simp [TwoPlayerGame.init]
  · simp [TwoPlayerGame.init, hUpdate, defaultRootRef]

theorem entriesL_append (p : Nat) (a b : List GTree) :
    entriesL p (a ++ b) = entriesL p a ++ entriesL p b := by
  induction a with
  | nil => simp [entriesL]
  | cons c r ih => simp [entriesL, ih]

theorem entriesOf_cons (p : Nat) (c : GTree) :
    entriesOf p c = vmEntry p c :: entriesL p (childrenOf c) := by
  cases c <;> simp [entriesOf, entriesL, vmEntry, childrenOf]

theorem entriesL_reverse (p : Nat) (a : List GTree) :
    (entriesL p a.reverse).Perm (entriesL p a) := by
  induction a with
  | nil => simp [entriesL]
  | cons c r ih =>
    simp only [List.reverse_cons, entriesL_append]
    refine List.Perm.trans List.perm_append_comm ?_
    refine List.Perm.trans (ih.append_left (entriesL p [c])) ?_
    simp [entriesL]

/-- What the `valuemap` loop accumulates is, up to order, one entry per node
of every tree still on the stack, in front of the accumulator. -/
theorem vmLoop_perm (p : Nat) : ∀ (n : Nat) (stack : List GTree) (acc : List (Nat × Int)),
    tsizeL stack ≤ n → (vmLoop p stack acc).Perm (entriesL p stack ++ acc) := by
  intro n
  induction n with
  | zero =>
    intro stack acc h
    cases stack with
    | nil => simp [vmLoop, entriesL]
    | cons c rest =>
      exfalso
      have := tsize_pos c
      simp [tsizeL] at h
      omega
  | succ n ih =>
    intro stack acc h
    cases stack with
    | nil => simp [vmLoop, entriesL]
    | cons c rest =>
      have hstep : vmLoop p (c :: rest) acc
          = vmLoop p ((childrenOf c).reverse ++ rest) (vmEntry p c :: acc) := by
        simp [vmLoop]
      rw [hstep]
      have hsz : tsizeL ((childrenOf c).reverse ++ rest) ≤ n := by
        have h1 := tsizeL_childrenOf_lt c
        simp only [tsizeL_append, tsizeL_reverse]
        simp only [tsizeL] at h
        omega
      refine (ih ((childrenOf c).reverse ++ rest) (vmEntry p c :: acc) hsz).trans ?_
      rw [entriesL_append]
      have h2 : entriesL p (c :: rest)
          = (vmEntry p c :: entriesL p (childrenOf c)) ++ entriesL p rest := by
        simp [entriesL, entriesOf_cons]
      rw [h2]
      exact List.Perm.trans List.perm_middle
        (List.Perm.cons _
          (((entriesL_reverse p (childrenOf c)).append_right _).append_right _))

theorem entriesL_fst (p : Nat) : ∀ l : List GTree,
    (∀ c ∈ l, (entriesOf p c).map Prod.fst = idsOf c) →
    (entriesL p l).map Prod.fst = idsOfL l := by
  intro l
  induction l with
  | nil => intro _; simp [entriesL, idsOfL]
  | cons c r ih =>
    intro IH
    simp only [entriesL, idsOfL, List.map_append]
    rw [IH c (List.mem_cons_self _ _), ih (fun c hc => IH c (List.mem_cons_of_mem _ hc))]

/-- The keys of the expected `valuemap` content are exactly the node ids. -/
theorem entriesOf_fst (p : Nat) : ∀ t, (entriesOf p t).map Prod.fst = idsOf t := by
  apply GTree.strongRec
  intro t IH
  cases t with
  | payoff nid q => simp [entriesOf, idsOf]
  | action nid pl d v cs =>
    simp only [entriesOf, idsOf, List.map_cons]
    rw [entriesL_fst p cs (fun c hc => IH c (tsize_lt_action hc nid pl d v))]

/-- Claim C7: on a solved game whose root is a `DecisionNode` and whose node
ids are pairwise distinct (as generation guarantees — see C5), `valuemap p`
succeeds and returns, up to the (unspecified) traversal order, exactly one
entry per node of the subtree, keyed by the node's id, whose value is the
payoff pair component `p` for a `PayoffNode` and the stored value pair
component `p` for a `DecisionNode` (the content of `entriesOf`).  The
`solvedOkB` hypothesis mirrors the claim's "solved game" precondition, under
which every stored value read by the traversal is actually set. -/
theorem claim7_valuemap (g : Game) (p nid pl : Nat) (d : Option Nat)
    (v : Option PPair) (cs : List GTree)
    (hsolved : g.solved = true)
    (_hok : solvedOkB (GTree.action nid pl d v cs) = true)
    (hids : (idsOf (GTree.action nid pl d v cs)).Nodup) :
    ∃ l, gameValuemap g (GTree.action nid pl d v cs) p = some l ∧
      l.Perm (entriesOf p (GTree.action nid pl d v cs)) ∧
      (l.map Prod.fst).Perm (idsOf (GTree.action nid pl d v cs)) ∧
      (l.map Prod.fst).Nodup := by
  have hper : (vmLoop p cs [(nid, comp (v.getD (0, 0)) p)]).Perm
      (entriesOf p (GTree.action nid pl d v cs)) := by
    refine (vmLoop_perm p (tsizeL cs) cs [(nid, comp (v.getD (0, 0)) p)] le_rfl).trans ?_
    simp only [entriesOf]
    exact List.perm_append_singleton _ _
  have hfst : ((vmLoop p cs [(nid, comp (v.getD (0, 0)) p)]).map Prod.fst).Perm
      (idsOf (GTree.action nid pl d v cs)) := by
    have h1 := hper.map Prod.fst
    rwa [entriesOf_fst] at h1
  exact ⟨vmLoop p cs [(nid, comp (v.getD (0, 0)) p)],
    by simp [gameValuemap, hsolved, valuemapRun],
    hper, hfst, hfst.nodup_iff.mpr hids⟩

/-- Witness for C7 at a solved 2-node game (root plus one payoff child):
the map has exactly 2 entries, keyed by the two distinct node ids 20, 21. -/
theorem claim7_valuemap_witness :
    gameValuemap (⟨0, defaultPs, true⟩ : Game)
      (GTree.action 20 0 (some 0) (some (-1, 1)) [GTree.payoff 21 (-1, 1)]) 0
      = some [(21, -1), (20, -1)] ∧
    (∃ l, gameValuemap (⟨0, defaultPs, true⟩ : Game)
        (GTree.action 20 0 (some 0) (some (-1, 1)) [GTree.payoff 21 (-1, 1)]) 0 = some l ∧
      l.Perm (entriesOf 0 (GTree.action 20 0 (some 0) (some (-1, 1))
        [GTree.payoff 21 (-1, 1)])) ∧
      (l.map Prod.fst).Perm (idsOf (GTree.action 20 0 (some 0) (some (-1, 1))
        [GTree.payoff 21 (-1, 1)])) ∧
      (l.map Prod.fst).Nodup) :=
  ⟨by simp [gameValuemap, valuemapRun, vmLoop, vmEntry, childrenOf, comp],
   claim7_valuemap (⟨0, defaultPs, true⟩ : Game) 0 20 0 (some 0) (some (-1, 1))
     [GTree.payoff 21 (-1, 1)] rfl
     (by simp [solvedOkB, solvedOkL, childVals, valueD, comp, dfltT])
     (by simp [idsOf, idsOfL])⟩

end RandomGames
